import Mathlib

/-!
Verification of the option-pricing core of the repository
(`black_scholes.py`, `greeks.py`, `implied_vol.py`, `model_comparison.py`)
against its natural-language specification.

The Python floats are modelled by real numbers.  Where the Python code can
raise (`ZeroDivisionError` on `x / 0.0`, `ValueError` on `math.log` of a
non-positive argument) or where numpy produces a NaN (float division by
zero inside an array computation), a `Checked` variant returning `Option ℝ`
records definedness: `none` marks exactly the inputs on which the Python
computation raises or yields NaN, and `some` carries the value computed by
the corresponding total model.
-/

open MeasureTheory intervalIntegral

noncomputable section

namespace BSM

/-- Model of `math.erf` from the C math library, by its mathematical
definition `erf x = 2/√π · ∫ t in 0..x, exp (-t²)`. -/
def erf (x : ℝ) : ℝ := 2 / Real.sqrt Real.pi * ∫ t in (0:ℝ)..x, Real.exp (-t ^ 2)

/-- Standard normal CDF as the source computes it:
`N = lambda x: 0.5 * (1 + math.erf(x / math.sqrt(2)))`
(identical in `black_scholes.py` and `greeks.py`). -/
def N (x : ℝ) : ℝ := 0.5 * (1 + erf (x / Real.sqrt 2))

/-- Standard normal density from `greeks.py`:
`n(x) = math.exp(-0.5 * x ** 2) / math.sqrt(2 * math.pi)`. -/
def n (x : ℝ) : ℝ := Real.exp (-0.5 * x ^ 2) / Real.sqrt (2 * Real.pi)

/-- Local variable `d1` of the general branch of `black_scholes_price`
(`black_scholes.py` line 40). -/
def bs_d1 (S K T r sigma q : ℝ) : ℝ :=
  (Real.log (S / K) + (r - q + 0.5 * sigma ^ 2) * T) / (sigma * Real.sqrt T)

/-- Local variable `d2` of the general branch of `black_scholes_price`
(`black_scholes.py` line 41). -/
def bs_d2 (S K T r sigma q : ℝ) : ℝ := bs_d1 S K T r sigma q - sigma * Real.sqrt T

/-- Model of `black_scholes_price` from `black_scholes.py`.  The Python
parameter `q` defaults to `0`; callers of the model pass it explicitly. -/
def black_scholes_price (S K T r sigma : ℝ) (option_type : String) (q : ℝ) : ℝ :=
  if T ≤ 0 then
    if option_type = "call" then max 0 (S - K) else max 0 (K - S)
  else if sigma ≤ 0 then
    if option_type = "call" then Real.exp (-r * T) * max 0 (S - K)
    else Real.exp (-r * T) * max 0 (K - S)
  else
    if option_type = "call" then
      S * Real.exp (-q * T) * N (bs_d1 S K T r sigma q)
        - K * Real.exp (-r * T) * N (bs_d2 S K T r sigma q)
    else
      K * Real.exp (-r * T) * N (-bs_d2 S K T r sigma q)
        - S * Real.exp (-q * T) * N (-bs_d1 S K T r sigma q)

/-- Definedness tracker for `black_scholes_price`: `none` exactly where the
Python function raises on finite input (`S / K` with `K = 0` raises
`ZeroDivisionError`; `math.log` of a non-positive `S / K` raises
`ValueError: math domain error`; both only reachable in the general branch). -/
def black_scholes_priceChecked (S K T r sigma : ℝ) (option_type : String) (q : ℝ) : Option ℝ :=
  if T ≤ 0 then some (black_scholes_price S K T r sigma option_type q)
  else if sigma ≤ 0 then some (black_scholes_price S K T r sigma option_type q)
  else if K = 0 then none
  else if S / K ≤ 0 then none
  else some (black_scholes_price S K T r sigma option_type q)

/-- Option kind as the specification describes it: an enumerated type with
exactly the two values `call` and `put`. -/
inductive OptionKind
  | call
  | put

/-- Closed-Form Pricer transcribed from the specification text (spec section 4.1):
degenerate branch 1 for `T ≤ 0` (undiscounted intrinsic value), degenerate
branch 2 for `σ ≤ 0` (discounted intrinsic value), and the general
Black-Scholes-Merton branch with `d1 = (ln(S/K) + (r − q + 0.5σ²)T)/(σ√T)`,
`d2 = d1 − σ√T`, and `Φ` the standard normal CDF computed via the error
function. -/
def bsSpecPrice (S K T r sigma q : ℝ) : OptionKind → ℝ
  | OptionKind.call =>
      if T ≤ 0 then max 0 (S - K)
      else if sigma ≤ 0 then Real.exp (-r * T) * max 0 (S - K)
      else
        let d1 := (Real.log (S / K) + (r - q + 0.5 * sigma ^ 2) * T) / (sigma * Real.sqrt T)
        let d2 := d1 - sigma * Real.sqrt T
        S * Real.exp (-q * T) * N d1 - K * Real.exp (-r * T) * N d2
  | OptionKind.put =>
      if T ≤ 0 then max 0 (K - S)
      else if sigma ≤ 0 then Real.exp (-r * T) * max 0 (K - S)
      else
        let d1 := (Real.log (S / K) + (r - q + 0.5 * sigma ^ 2) * T) / (sigma * Real.sqrt T)
        let d2 := d1 - sigma * Real.sqrt T
        K * Real.exp (-r * T) * N (-d2) - S * Real.exp (-q * T) * N (-d1)

/-- Helper `_d1` from `greeks.py` (no dividend yield). -/
def _d1 (S K T r sigma : ℝ) : ℝ :=
  (Real.log (S / K) + (r + 0.5 * sigma ^ 2) * T) / (sigma * Real.sqrt T)

/-- Helper `_d2` from `greeks.py`. -/
def _d2 (S K T r sigma : ℝ) : ℝ := _d1 S K T r sigma - sigma * Real.sqrt T

/-- Definedness tracker for `_d1`: the Python helper raises
`ZeroDivisionError` when `K = 0` (in `S / K`) or when
`sigma * math.sqrt(T) = 0` (in particular at `T = 0`), and `ValueError` when
`S / K ≤ 0`. -/
def _d1Checked (S K T r sigma : ℝ) : Option ℝ :=
  if K = 0 then none
  else if S / K ≤ 0 then none
  else if sigma * Real.sqrt T = 0 then none
  else some (_d1 S K T r sigma)

/-- Definedness tracker for `_d2` (partiality inherited from `_d1`). -/
def _d2Checked (S K T r sigma : ℝ) : Option ℝ :=
  (_d1Checked S K T r sigma).map fun x => x - sigma * Real.sqrt T

/-- Model of `delta` from `greeks.py`. -/
def delta (S K T r sigma : ℝ) (option_type : String) : ℝ :=
  if option_type = "call" then N (_d1 S K T r sigma) else N (_d1 S K T r sigma) - 1

/-- Definedness tracker for `delta` (partiality inherited from `_d1`). -/
def deltaChecked (S K T r sigma : ℝ) (option_type : String) : Option ℝ :=
  (_d1Checked S K T r sigma).map fun x => if option_type = "call" then N x else N x - 1

/-- Model of `gamma` from `greeks.py`. -/
def gamma (S K T r sigma : ℝ) : ℝ :=
  n (_d1 S K T r sigma) / (S * sigma * Real.sqrt T)

/-- Definedness tracker for `gamma`: `_d1` partiality plus the division by
`S * sigma * math.sqrt(T)`. -/
def gammaChecked (S K T r sigma : ℝ) : Option ℝ :=
  (_d1Checked S K T r sigma).bind fun x =>
    if S * sigma * Real.sqrt T = 0 then none else some (n x / (S * sigma * Real.sqrt T))

/-- Model of `theta` from `greeks.py` (value decay per calendar day). -/
def theta (S K T r sigma : ℝ) (option_type : String) : ℝ :=
  let first := -S * n (_d1 S K T r sigma) * sigma / (2 * Real.sqrt T)
  if option_type = "call" then
    (first + -r * K * Real.exp (-r * T) * N (_d2 S K T r sigma)) / 365
  else
    (first + r * K * Real.exp (-r * T) * N (-_d2 S K T r sigma)) / 365

/-- Definedness tracker for `theta`: `_d1`/`_d2` partiality plus the division
by `2 * math.sqrt(T)`. -/
def thetaChecked (S K T r sigma : ℝ) (option_type : String) : Option ℝ :=
  (_d1Checked S K T r sigma).bind fun x =>
    (_d2Checked S K T r sigma).bind fun y =>
      if 2 * Real.sqrt T = 0 then none
      else
        some (if option_type = "call" then
            (-S * n x * sigma / (2 * Real.sqrt T) + -r * K * Real.exp (-r * T) * N y) / 365
          else
            (-S * n x * sigma / (2 * Real.sqrt T) + r * K * Real.exp (-r * T) * N (-y)) / 365)

/-- Model of `vega` from `greeks.py` (per 1-percentage-point vol change). -/
def vega (S K T r sigma : ℝ) : ℝ :=
  S * n (_d1 S K T r sigma) * Real.sqrt T / 100

/-- Definedness tracker for `vega` (partiality inherited from `_d1`). -/
def vegaChecked (S K T r sigma : ℝ) : Option ℝ :=
  (_d1Checked S K T r sigma).map fun x => S * n x * Real.sqrt T / 100

/-- Model of `rho` from `greeks.py` (per 1-percentage-point rate change). -/
def rho (S K T r sigma : ℝ) (option_type : String) : ℝ :=
  if option_type = "call" then K * T * Real.exp (-r * T) * N (_d2 S K T r sigma) / 100
  else -K * T * Real.exp (-r * T) * N (-_d2 S K T r sigma) / 100

/-- Definedness tracker for `rho` (partiality inherited from `_d2`). -/
def rhoChecked (S K T r sigma : ℝ) (option_type : String) : Option ℝ :=
  (_d2Checked S K T r sigma).map fun y =>
    if option_type = "call" then K * T * Real.exp (-r * T) * N y / 100
    else -K * T * Real.exp (-r * T) * N (-y) / 100

/-- One backward-induction sweep of `binomial_tree_price`
(`model_comparison.py` line 19): numpy's
`disc * (p * values[:-1] + (1 - p) * values[1:])` collapses a layer of `k`
values to `k - 1` values. -/
def collapse_layer (disc p : ℝ) (values : List ℝ) : List ℝ :=
  List.zipWith (fun a b => disc * (p * a + (1 - p) * b)) values values.tail

/-- Model of `binomial_tree_price` from `model_comparison.py`: terminal
prices `S·u^(steps−i)·d^i` for `i = 0..steps`, European payoff, then
`steps` backward-induction sweeps; the answer is `values[0]`. -/
def binomial_tree_price (S K T r sigma : ℝ) (option_type : String) (steps : ℕ) : ℝ :=
  let dt := T / (steps : ℝ)
  let u := Real.exp (sigma * Real.sqrt dt)
  let d := 1 / u
  let p := (Real.exp (r * dt) - d) / (u - d)
  let disc := Real.exp (-r * dt)
  let payoff : ℕ → ℝ := fun i =>
    let ST := S * u ^ (steps - i) * d ^ i
    if option_type = "call" then max (ST - K) 0 else max (K - ST) 0
  ((collapse_layer disc p)^[steps] ((List.range (steps + 1)).map payoff)).headI

/-- Definedness tracker for `binomial_tree_price`: `none` where the Python
computation has no finite value — `steps = 0` makes `T / steps` raise
`ZeroDivisionError`, and `u - d = 0` (exactly when `sigma * sqrt(T/steps) = 0`,
e.g. at `T = 0` or `sigma = 0`) makes `p = (exp(r·dt) - d) / (u - d)` a numpy
division by zero, which floods the backward induction with NaN. -/
def binomial_tree_priceChecked (S K T r sigma : ℝ) (option_type : String) (steps : ℕ) : Option ℝ :=
  if steps = 0 then none
  else if Real.exp (sigma * Real.sqrt (T / (steps : ℝ)))
      - 1 / Real.exp (sigma * Real.sqrt (T / (steps : ℝ))) = 0 then none
  else some (binomial_tree_price S K T r sigma option_type steps)

/-- Backward-induction node value transcribed from the specification text
(spec section 4.3): the value `steps` sweeps above a terminal layer `payoff`,
each sweep being `v_i = e^(-rΔt)·(p·v_i + (1-p)·v_(i+1))`. -/
def lattice_value (payoff : ℕ → ℝ) (disc p : ℝ) : ℕ → ℕ → ℝ
  | 0, i => payoff i
  | k + 1, i =>
      disc * (p * lattice_value payoff disc p k i + (1 - p) * lattice_value payoff disc p k (i + 1))

/-- Lattice Pricer transcribed from the specification text (spec section 4.3):
factors `u = e^(σ√Δt)`, `d = 1/u`, `Δt = T/steps`, risk-neutral probability
`p = (e^(rΔt) − d)/(u − d)`, terminal prices `S·u^(steps−i)·d^i`, European
payoff, and the single value left after `steps` backward-induction sweeps. -/
def binomialSpecPrice (S K T r sigma : ℝ) (kind : OptionKind) (steps : ℕ) : ℝ :=
  let dt := T / (steps : ℝ)
  let u := Real.exp (sigma * Real.sqrt dt)
  let d := 1 / u
  let p := (Real.exp (r * dt) - d) / (u - d)
  let disc := Real.exp (-r * dt)
  let terminal : ℕ → ℝ := fun i => S * u ^ (steps - i) * d ^ i
  let payoff : ℕ → ℝ := fun i =>
    match kind with
    | OptionKind.call => max (terminal i - K) 0
    | OptionKind.put => max (K - terminal i) 0
  lattice_value payoff disc p steps 0

/-- Model of `monte_carlo_price` from `model_comparison.py`.  numpy's global
pseudo-random generator is modelled by a deterministic variate table
`G : seed → draw index → variate` together with the incoming generator state
`rng_state` (the state the process's global generator happens to be in when
the function is called).  The function begins with `np.random.seed(42)`, so
its draws are `G 42 0, G 42 1, ...` and `rng_state` is discarded, exactly as
the hardcoded reseeding discards the prior numpy state. -/
def monte_carlo_price (G : ℕ → ℕ → ℝ) (rng_state : ℕ) (S K T r sigma : ℝ)
    (option_type : String) (n_paths : ℕ) : ℝ :=
  let Z : ℕ → ℝ := G 42
  let payoffs : List ℝ := (List.range n_paths).map fun i =>
    let ST := S * Real.exp ((r - 0.5 * sigma ^ 2) * T + sigma * Real.sqrt T * Z i)
    if option_type = "call" then max (ST - K) 0 else max (K - ST) 0
  Real.exp (-r * T) * (payoffs.sum / (n_paths : ℝ))

/-- Modelled from the spec: `scipy.optimize.brentq` is external library code
whose source is not part of this repository; spec section 4.5 describes the
solver as bracketed root-finding over a fixed bracket with a bounded
iteration count, so it is modelled as bracket bisection.  Each step keeps
the half-bracket across which `f` changes sign.  Returns the final bracket. -/
def bisect (f : ℝ → ℝ) : ℕ → ℝ → ℝ → ℝ × ℝ
  | 0, lo, hi => (lo, hi)
  | fuel + 1, lo, hi =>
      let mid := (lo + hi) / 2
      if f lo * f mid ≤ 0 then bisect f fuel lo mid else bisect f fuel mid hi

/-- Modelled from the spec: the contract of `scipy.optimize.brentq` (external
library).  If `f a` and `f b` have the same strict sign the solver reports
failure (scipy raises `ValueError`, which `implied_vol` turns into its
not-found sentinel); otherwise it runs the bracketed search for `maxiter`
iterations and returns the midpoint of the final bracket. -/
def brentq (f : ℝ → ℝ) (a b : ℝ) (maxiter : ℕ) : Option ℝ :=
  if 0 < f a * f b then none
  else some (((bisect f maxiter a b).1 + (bisect f maxiter a b).2) / 2)

/-- Model of `implied_vol` from `implied_vol.py`: root-find
`black_scholes_price(S, K, T, r, σ, kind) − market_price` over the bracket
`[1e-6, 5.0]` with `maxiter=100`; any solver failure is caught and becomes
the not-found sentinel (`np.nan` in the source, `none` here). -/
def implied_vol (S K T r market_price : ℝ) (option_type : String) : Option ℝ :=
  brentq (fun sigma => black_scholes_price S K T r sigma option_type 0 - market_price)
    (1 / 1000000) 5 100

end BSM

end

namespace BSM

theorem map_range_succ_cons (g : ℕ → ℝ) (k : ℕ) :
    (List.range (k + 1)).map g = g 0 :: (List.range k).map fun i => g (i + 1) := by
  rw [List.range_succ_eq_map, List.map_cons, List.map_map]
  rfl

theorem collapse_layer_cons (disc p a b : ℝ) (l : List ℝ) :
    collapse_layer disc p (a :: b :: l) =
      disc * (p * a + (1 - p) * b) :: collapse_layer disc p (b :: l) := rfl

theorem collapse_layer_map_range (disc p : ℝ) :
    ∀ (m : ℕ) (g : ℕ → ℝ),
      collapse_layer disc p ((List.range (m + 1)).map g) =
        (List.range m).map fun i => disc * (p * g i + (1 - p) * g (i + 1)) := by
  intro m
  induction m with
  | zero =>
      intro g
      simp [collapse_layer, List.range_succ]
  | succ k ih =>
      intro g
      rw [map_range_succ_cons g (k + 1), map_range_succ_cons (fun i => g (i + 1)) k,
        collapse_layer_cons, ← map_range_succ_cons (fun i => g (i + 1)) k, ih,
        map_range_succ_cons (fun i => disc * (p * g i + (1 - p) * g (i + 1))) k]

theorem lattice_value_succ_bottom (disc p : ℝ) (g : ℕ → ℝ) :
    ∀ (k i : ℕ),
      lattice_value (fun j => disc * (p * g j + (1 - p) * g (j + 1))) disc p k i =
        lattice_value g disc p (k + 1) i := by
  intro k
  induction k with
  | zero => intro i; simp [lattice_value]
  | succ k ih => intro i; simp only [lattice_value, ih]

theorem iterate_collapse_layer (disc p : ℝ) :
    ∀ (k m : ℕ) (g : ℕ → ℝ),
      (collapse_layer disc p)^[k] ((List.range (k + m + 1)).map g) =
        (List.range (m + 1)).map fun i => lattice_value g disc p k i := by
  intro k
  induction k with
  | zero =>
      intro m g
      simp [lattice_value]
  | succ k ih =>
      intro m g
      have harith : k + 1 + m + 1 = k + m + 1 + 1 := by omega
      rw [Function.iterate_succ_apply, harith,
        collapse_layer_map_range disc p (k + m + 1) g,
        ih m (fun i => disc * (p * g i + (1 - p) * g (i + 1)))]
      apply List.map_congr_left
      intro i _
      exact lattice_value_succ_bottom disc p g k i

theorem headI_iterate_collapse (disc p : ℝ) (steps : ℕ) (g : ℕ → ℝ) :
    ((collapse_layer disc p)^[steps] ((List.range (steps + 1)).map g)).headI =
      lattice_value g disc p steps 0 := by
  have h := iterate_collapse_layer disc p steps 0 g
  simp only [Nat.add_zero] at h
  rw [h]
  simp [List.range_succ]

/-- C1: for every input, `black_scholes_price` returns exactly the valuation
the specification prescribes: undiscounted intrinsic value when `T ≤ 0`,
discounted intrinsic value when `σ ≤ 0` (and `T > 0`), and otherwise the
Black-Scholes-Merton value built from `d1`, `d2` and the error-function
normal CDF — for the call kind and the put kind alike. -/
theorem black_scholes_price_matches_spec (S K T r sigma q : ℝ) :
    black_scholes_price S K T r sigma "call" q = bsSpecPrice S K T r sigma q OptionKind.call ∧
    black_scholes_price S K T r sigma "put" q = bsSpecPrice S K T r sigma q OptionKind.put := by
  constructor <;> simp [black_scholes_price, bsSpecPrice, bs_d1, bs_d2]

/-- C7: `binomial_tree_price` computes the specified lattice algorithm —
its value is exactly the backward-induction node value of the recombining
binomial lattice over the European terminal payoffs, with the specified
`u`, `d`, `p` and discount factor, for calls and for puts.  Determinism is
inherent: the model is a pure function of its arguments. -/
theorem binomial_tree_price_matches_spec (S K T r sigma : ℝ) (steps : ℕ) :
    binomial_tree_price S K T r sigma "call" steps
        = binomialSpecPrice S K T r sigma OptionKind.call steps ∧
    binomial_tree_price S K T r sigma "put" steps
        = binomialSpecPrice S K T r sigma OptionKind.put steps := by
  constructor <;>
  · simp only [binomial_tree_price, binomialSpecPrice]
    rw [headI_iterate_collapse]
    congr 1

/-- C9: the Simulation Pricer reseeds numpy with the hardcoded constant 42
on every call, so its result does not depend on the incoming global
generator state: two invocations with identical arguments — whatever states
`s1` and `s2` the generator was in — return exactly the same price, for any
underlying variate table `G`. -/
theorem monte_carlo_two_run_determinism (G : ℕ → ℕ → ℝ) (s1 s2 : ℕ) (S K T r sigma : ℝ)
    (option_type : String) (n_paths : ℕ) :
    monte_carlo_price G s1 S K T r sigma option_type n_paths =
      monte_carlo_price G s2 S K T r sigma option_type n_paths := rfl

/-- C10: none of the pricing functions validates the option-kind string;
every value other than the exact string "call" — "Call", "CALL", a
misspelling, anything — is silently priced as a put by
`black_scholes_price`, by the kind-dependent Greeks `delta`, `theta`, `rho`,
by `binomial_tree_price` and by `monte_carlo_price`. -/
theorem kind_fallthrough_put (option_type : String) (h : option_type ≠ "call")
    (S K T r sigma q : ℝ) (G : ℕ → ℕ → ℝ) (s : ℕ) (steps n_paths : ℕ) :
    black_scholes_price S K T r sigma option_type q
        = black_scholes_price S K T r sigma "put" q ∧
    delta S K T r sigma option_type = delta S K T r sigma "put" ∧
    theta S K T r sigma option_type = theta S K T r sigma "put" ∧
    rho S K T r sigma option_type = rho S K T r sigma "put" ∧
    binomial_tree_price S K T r sigma option_type steps
        = binomial_tree_price S K T r sigma "put" steps ∧
    monte_carlo_price G s S K T r sigma option_type n_paths
        = monte_carlo_price G s S K T r sigma "put" n_paths := by
  refine ⟨?_, ?_, ?_, ?_, ?_, ?_⟩ <;>
    simp [black_scholes_price, delta, theta, rho, binomial_tree_price, monte_carlo_price, h]

/-- Witness for C10 at the concrete kind string "Call" (wrong case): it is
priced as a put. -/
theorem kind_fallthrough_put_witness :
    black_scholes_price 100 100 1 (5 / 100) (2 / 10) "Call" 0
      = black_scholes_price 100 100 1 (5 / 100) (2 / 10) "put" 0 :=
  (kind_fallthrough_put "Call" (by decide) 100 100 1 (5 / 100) (2 / 10) 0
    (fun _ _ => 0) 0 10 10).1

end BSM

namespace BSM

theorem continuous_gauss : Continuous fun t : ℝ => Real.exp (-t ^ 2) :=
  Real.continuous_exp.comp (continuous_pow 2).neg

theorem integrable_gauss (a b : ℝ) :
    IntervalIntegrable (fun t : ℝ => Real.exp (-t ^ 2)) volume a b :=
  continuous_gauss.intervalIntegrable a b

theorem gauss_integral_neg (x : ℝ) :
    (∫ t in (0:ℝ)..(-x), Real.exp (-t ^ 2)) = -∫ t in (0:ℝ)..x, Real.exp (-t ^ 2) := by
  have h : (∫ t in (0:ℝ)..x, Real.exp (-(-t) ^ 2)) = ∫ t in (-x)..(-(0:ℝ)), Real.exp (-t ^ 2) :=
    intervalIntegral.integral_comp_neg fun t : ℝ => Real.exp (-t ^ 2)
  simp only [neg_neg, neg_sq, neg_zero] at h
  have h2 : (∫ t in (-x)..(0:ℝ), Real.exp (-t ^ 2)) = -∫ t in (0:ℝ)..(-x), Real.exp (-t ^ 2) :=
    intervalIntegral.integral_symm 0 (-x)
  linarith

theorem erf_neg (x : ℝ) : erf (-x) = -erf x := by
  unfold erf
  rw [gauss_integral_neg]
  ring

theorem sqrt_pi_pos : 0 < Real.sqrt Real.pi := Real.sqrt_pos.mpr Real.pi_pos

theorem erf_monotone : Monotone erf := by
  intro x y hxy
  unfold erf
  have hsplit := intervalIntegral.integral_add_adjacent_intervals
    (integrable_gauss 0 x) (integrable_gauss x y)
  have hnn : 0 ≤ ∫ t in x..y, Real.exp (-t ^ 2) :=
    intervalIntegral.integral_nonneg hxy fun u _ => (Real.exp_pos _).le
  have hc : 0 ≤ 2 / Real.sqrt Real.pi := by positivity
  have : (∫ t in (0:ℝ)..x, Real.exp (-t ^ 2)) ≤ ∫ t in (0:ℝ)..y, Real.exp (-t ^ 2) := by
    linarith
  exact mul_le_mul_of_nonneg_left this hc

theorem gauss_fun_one_mul :
    (fun t : ℝ => Real.exp (-(1:ℝ) * t ^ 2)) = fun t : ℝ => Real.exp (-t ^ 2) := by
  funext t
  norm_num

theorem gauss_integrableOn_Ioi :
    IntegrableOn (fun t : ℝ => Real.exp (-t ^ 2)) (Set.Ioi 0) := by
  have h : Integrable fun t : ℝ => Real.exp (-(1:ℝ) * t ^ 2) :=
    integrable_exp_neg_mul_sq (by norm_num : (0:ℝ) < 1)
  have h2 : IntegrableOn (fun t : ℝ => Real.exp (-(1:ℝ) * t ^ 2)) (Set.Ioi 0) :=
    h.integrableOn
  rw [← gauss_fun_one_mul]
  exact h2

theorem gauss_integral_Ioi :
    (∫ t in Set.Ioi (0:ℝ), Real.exp (-t ^ 2)) = Real.sqrt Real.pi / 2 := by
  have h := integral_gaussian_Ioi (1:ℝ)
  rw [gauss_fun_one_mul] at h
  rw [h, div_one]

theorem erf_le_one (x : ℝ) : erf x ≤ 1 := by
  rcases le_or_lt x 0 with hx | hx
  · have hnn : 0 ≤ ∫ t in x..(0:ℝ), Real.exp (-t ^ 2) :=
      intervalIntegral.integral_nonneg hx fun u _ => (Real.exp_pos _).le
    have hsymm : (∫ t in x..(0:ℝ), Real.exp (-t ^ 2)) = -∫ t in (0:ℝ)..x, Real.exp (-t ^ 2) :=
      intervalIntegral.integral_symm 0 x
    have hle : (∫ t in (0:ℝ)..x, Real.exp (-t ^ 2)) ≤ 0 := by linarith
    have hc : 0 ≤ 2 / Real.sqrt Real.pi := by positivity
    unfold erf
    nlinarith
  · have key : (∫ t in (0:ℝ)..x, Real.exp (-t ^ 2))
        ≤ ∫ t in Set.Ioi (0:ℝ), Real.exp (-t ^ 2) := by
      rw [intervalIntegral.integral_of_le hx.le]
      exact setIntegral_mono_set gauss_integrableOn_Ioi
        (Filter.Eventually.of_forall fun t => (Real.exp_pos _).le)
        Set.Ioc_subset_Ioi_self.eventuallyLE
    rw [gauss_integral_Ioi] at key
    have hc : (0:ℝ) < 2 / Real.sqrt Real.pi := by positivity
    have hmul := mul_le_mul_of_nonneg_left key hc.le
    unfold erf
    calc 2 / Real.sqrt Real.pi * ∫ t in (0:ℝ)..x, Real.exp (-t ^ 2)
        ≤ 2 / Real.sqrt Real.pi * (Real.sqrt Real.pi / 2) := hmul
      _ = 1 := by
          field_simp

theorem neg_one_le_erf (x : ℝ) : -1 ≤ erf x := by
  have h := erf_le_one (-x)
  rw [erf_neg] at h
  linarith

theorem N_neg (x : ℝ) : N (-x) = 1 - N x := by
  unfold N
  rw [neg_div, erf_neg]
  ring

theorem N_nonneg (x : ℝ) : 0 ≤ N x := by
  unfold N
  have := neg_one_le_erf (x / Real.sqrt 2)
  linarith

theorem N_le_one (x : ℝ) : N x ≤ 1 := by
  unfold N
  have := erf_le_one (x / Real.sqrt 2)
  linarith

theorem N_monotone : Monotone N := by
  intro x y hxy
  unfold N
  have h2 : (0:ℝ) < Real.sqrt 2 := Real.sqrt_pos.mpr two_pos
  have := erf_monotone (div_le_div_of_nonneg_right hxy h2.le)
  linarith

theorem bs_put_ne_call : ("put" : String) ≠ "call" := by decide

theorem black_scholes_price_call_general (S K T r sigma q : ℝ)
    (h1 : ¬ T ≤ 0) (h2 : ¬ sigma ≤ 0) :
    black_scholes_price S K T r sigma "call" q
      = S * Real.exp (-q * T) * N (bs_d1 S K T r sigma q)
        - K * Real.exp (-r * T) * N (bs_d2 S K T r sigma q) := by
  simp only [black_scholes_price, h1, h2, if_false, if_true, reduceIte]

theorem black_scholes_price_put_general (S K T r sigma q : ℝ)
    (h1 : ¬ T ≤ 0) (h2 : ¬ sigma ≤ 0) :
    black_scholes_price S K T r sigma "put" q
      = K * Real.exp (-r * T) * N (-bs_d2 S K T r sigma q)
        - S * Real.exp (-q * T) * N (-bs_d1 S K T r sigma q) := by
  simp only [black_scholes_price, h1, h2, if_false]
  rw [if_neg bs_put_ne_call]

theorem bs_parity_general (S K T r sigma q : ℝ) (hT : 0 < T) (hs : 0 < sigma) :
    black_scholes_price S K T r sigma "call" q - black_scholes_price S K T r sigma "put" q
      = S * Real.exp (-q * T) - K * Real.exp (-r * T) := by
  rw [black_scholes_price_call_general S K T r sigma q (not_le.mpr hT) (not_le.mpr hs),
    black_scholes_price_put_general S K T r sigma q (not_le.mpr hT) (not_le.mpr hs),
    N_neg (bs_d1 S K T r sigma q), N_neg (bs_d2 S K T r sigma q)]
  ring

/-- C2 (amended): in the general branch — `T > 0` and `σ > 0` — put-call
parity `Call − Put = S·e^(−qT) − K·e^(−rT)` holds exactly, hence within the
claimed 1e-6 tolerance, for all `S`, `K`, `r`, `q`. -/
theorem put_call_parity (S K T r sigma q : ℝ) (hT : 0 < T) (hs : 0 < sigma) :
    |black_scholes_price S K T r sigma "call" q - black_scholes_price S K T r sigma "put" q
      - (S * Real.exp (-q * T) - K * Real.exp (-r * T))| ≤ 1 / 1000000 := by
  rw [bs_parity_general S K T r sigma q hT hs]
  simp

/-- Witness for C2 at `S=100, K=100, T=1, r=0.05, σ=0.2, q=0.03`. -/
theorem put_call_parity_witness :
    |black_scholes_price 100 100 1 (5/100) (2/10) "call" (3/100)
      - black_scholes_price 100 100 1 (5/100) (2/10) "put" (3/100)
      - (100 * Real.exp (-(3/100) * 1) - 100 * Real.exp (-(5/100) * 1))| ≤ 1 / 1000000 :=
  put_call_parity 100 100 1 (5/100) (2/10) (3/100) (by norm_num) (by norm_num)

/-- C2 counterexample: the claim quantifies over all σ (σ = 0 included), but
in the zero-volatility branch the code discounts the intrinsic value by
`e^(−rT)` without the parity structure: at `S=100, K=90, T=1, r=0.05, σ=0,
q=0` the parity residual is `100·(1 − e^(−0.05)) ≈ 4.88`, far above 1e-6. -/
theorem put_call_parity_counterexample :
    1 / 1000000 <
      |black_scholes_price 100 90 1 (5/100) 0 "call" 0
        - black_scholes_price 100 90 1 (5/100) 0 "put" 0
        - (100 * Real.exp (-(0:ℝ) * 1) - 90 * Real.exp (-(5/100) * 1))| := by
  have hT : ¬ (1:ℝ) ≤ 0 := by norm_num
  have hcall : black_scholes_price 100 90 1 (5/100) 0 "call" 0
      = Real.exp (-(5/100) * 1) * 10 := by
    simp only [black_scholes_price]
    rw [if_neg hT, if_pos (le_refl (0:ℝ))]
    norm_num [max_def]
  have hput : black_scholes_price 100 90 1 (5/100) 0 "put" 0 = 0 := by
    simp only [black_scholes_price]
    rw [if_neg hT, if_pos (le_refl (0:ℝ))]
    norm_num [max_def, bs_put_ne_call]
  have harg : (-(5/100 : ℝ) * 1) = -(5/100) := by norm_num
  rw [hcall, hput, harg, show (-(0:ℝ) * 1) = (0:ℝ) by norm_num, Real.exp_zero]
  have h1 : (1.05 : ℝ) ≤ Real.exp (5/100) := by
    have := Real.add_one_le_exp (5/100 : ℝ)
    linarith
  have h2 : Real.exp (-(5/100) : ℝ) ≤ 1/1.05 := by
    rw [Real.exp_neg]
    have hinv := inv_anti₀ (by norm_num : (0:ℝ) < 1.05) h1
    calc (Real.exp (5/100))⁻¹ ≤ (1.05:ℝ)⁻¹ := hinv
      _ = 1/1.05 := by rw [one_div]
  rw [abs_of_nonpos (by nlinarith)]
  nlinarith

end BSM

namespace BSM

theorem _d1Checked_expiry (S : ℝ) (hS : 0 < S) (r sigma : ℝ) :
    _d1Checked S 100 0 r sigma = none := by
  unfold _d1Checked
  rw [if_neg (by norm_num : ¬ (100:ℝ) = 0),
    if_neg (not_le.mpr (by positivity : (0:ℝ) < S / 100)),
    if_pos (by simp [Real.sqrt_zero])]

/-- C3 (code bug): the Greeks code has no `T = 0` special case — `_d1`
divides by `sigma * math.sqrt(T) = 0` — so at the spec's own expiry test
points every Greeks function raises `ZeroDivisionError` (modelled: the
checked evaluation is `none`) instead of returning the boundary values
(delta the moneyness indicator, gamma/theta/vega/rho zero) that the spec
and the repository's `test_greeks.py::test_greeks_zero_time` require. -/
theorem greeks_raise_at_expiry :
    deltaChecked 120 100 0 (5/100) (2/10) "call" = none ∧
    deltaChecked 80 100 0 (5/100) (2/10) "call" = none ∧
    gammaChecked 100 100 0 (5/100) (2/10) = none ∧
    thetaChecked 100 100 0 (5/100) (2/10) "call" = none ∧
    vegaChecked 100 100 0 (5/100) (2/10) = none ∧
    rhoChecked 100 100 0 (5/100) (2/10) "call" = none := by
  have h120 := _d1Checked_expiry 120 (by norm_num) (5/100) (2/10)
  have h80 := _d1Checked_expiry 80 (by norm_num) (5/100) (2/10)
  have h100 := _d1Checked_expiry 100 (by norm_num) (5/100) (2/10)
  refine ⟨?_, ?_, ?_, ?_, ?_, ?_⟩ <;>
    simp [deltaChecked, gammaChecked, thetaChecked, vegaChecked, rhoChecked, _d2Checked,
      h120, h80, h100]

/-- C6 counterexample: `black_scholes_price` is not error-free on every
finite numeric input — at `K = 0` (finite) the general branch's `S / K`
raises `ZeroDivisionError` — and `binomial_tree_price` does not produce a
well-defined price at the degenerate input `T = 0`: there `u = d = 1`, the
risk-neutral probability is a `0/0` division, and the backward induction
returns NaN. -/
theorem totality_counterexample :
    black_scholes_priceChecked 100 0 1 (5/100) (2/10) "call" 0 = none ∧
    binomial_tree_priceChecked 100 100 0 (5/100) (2/10) "call" 1000 = none := by
  constructor
  · unfold black_scholes_priceChecked
    rw [if_neg (by norm_num : ¬ (1:ℝ) ≤ 0), if_neg (by norm_num : ¬ (2/10:ℝ) ≤ 0),
      if_pos rfl]
  · unfold binomial_tree_priceChecked
    rw [if_neg (by norm_num : ¬ (1000 = 0))]
    rw [if_pos]
    norm_num [Real.sqrt_zero]

/-- C6 (amended): `black_scholes_price` raises no error and lands in one of
its three explicit branches for every finite input with `S > 0` and
`K > 0` (the documented domain; the two degenerate branches are error-free
for any `S`, `K`), and `binomial_tree_price` produces a well-defined
(non-NaN) price whenever `T > 0`, `σ > 0` and `steps ≥ 1` — but the
degenerate inputs `T = 0` and `σ = 0` themselves make the binomial pricer
produce NaN, not a price. -/
theorem totality_on_documented_domain :
    (∀ (S K T r sigma q : ℝ) (ot : String), 0 < S → 0 < K →
      black_scholes_priceChecked S K T r sigma ot q
        = some (black_scholes_price S K T r sigma ot q)) ∧
    (∀ (S K T r sigma : ℝ) (ot : String) (steps : ℕ), 0 < T → 0 < sigma → 1 ≤ steps →
      binomial_tree_priceChecked S K T r sigma ot steps
        = some (binomial_tree_price S K T r sigma ot steps)) := by
  constructor
  · intro S K T r sigma q ot hS hK
    unfold black_scholes_priceChecked
    split_ifs with h1 h2 h3 h4
    · rfl
    · rfl
    · exact absurd h3 hK.ne'
    · exact absurd h4 (not_le.mpr (by positivity))
    · rfl
  · intro S K T r sigma ot steps hT hs hsteps
    unfold binomial_tree_priceChecked
    have hstep_pos : (0:ℝ) < (steps:ℝ) := by
      have : 0 < steps := hsteps
      exact_mod_cast this
    have hdt : 0 < T / (steps:ℝ) := div_pos hT hstep_pos
    have hx : 0 < sigma * Real.sqrt (T / (steps:ℝ)) :=
      mul_pos hs (Real.sqrt_pos.mpr hdt)
    have hu : 1 < Real.exp (sigma * Real.sqrt (T / (steps:ℝ))) := by
      have := Real.add_one_le_exp (sigma * Real.sqrt (T / (steps:ℝ)))
      linarith
    have hne : Real.exp (sigma * Real.sqrt (T / (steps:ℝ)))
        - 1 / Real.exp (sigma * Real.sqrt (T / (steps:ℝ))) ≠ 0 := by
      have hd : 1 / Real.exp (sigma * Real.sqrt (T / (steps:ℝ))) < 1 := by
        rw [div_lt_one (by positivity)]
        exact hu
      have : 0 < Real.exp (sigma * Real.sqrt (T / (steps:ℝ)))
          - 1 / Real.exp (sigma * Real.sqrt (T / (steps:ℝ))) := by linarith
      exact this.ne'
    rw [if_neg (by omega : ¬ steps = 0), if_neg hne]

/-- Witness for C6 at concrete in-domain inputs. -/
theorem totality_on_documented_domain_witness :
    black_scholes_priceChecked 100 100 1 (5/100) (2/10) "call" 0
        = some (black_scholes_price 100 100 1 (5/100) (2/10) "call" 0) ∧
    binomial_tree_priceChecked 100 100 1 (5/100) (2/10) "put" 3
        = some (binomial_tree_price 100 100 1 (5/100) (2/10) "put" 3) :=
  ⟨totality_on_documented_domain.1 100 100 1 (5/100) (2/10) 0 "call"
      (by norm_num) (by norm_num),
    totality_on_documented_domain.2 100 100 1 (5/100) (2/10) "put" 3
      (by norm_num) (by norm_num) (by norm_num)⟩

end BSM

namespace BSM

theorem hasDerivAt_erf (x : ℝ) :
    HasDerivAt erf (2 / Real.sqrt Real.pi * Real.exp (-x ^ 2)) x := by
  have hprim : HasDerivAt (fun u : ℝ => ∫ t in (0:ℝ)..u, Real.exp (-t ^ 2))
      (Real.exp (-x ^ 2)) x :=
    intervalIntegral.integral_hasDerivAt_right (integrable_gauss 0 x)
      (continuous_gauss.stronglyMeasurableAtFilter _ _)
      continuous_gauss.continuousAt
  have h := hprim.const_mul (2 / Real.sqrt Real.pi)
  simpa [erf] using h

theorem hasDerivAt_N (x : ℝ) : HasDerivAt N (n x) x := by
  have hdiv : HasDerivAt (fun u : ℝ => u / Real.sqrt 2) (1 / Real.sqrt 2) x := by
    simpa using (hasDerivAt_id x).div_const (Real.sqrt 2)
  have hcomp : HasDerivAt (fun u : ℝ => erf (u / Real.sqrt 2))
      (2 / Real.sqrt Real.pi * Real.exp (-(x / Real.sqrt 2) ^ 2) * (1 / Real.sqrt 2)) x :=
    (hasDerivAt_erf (x / Real.sqrt 2)).comp x hdiv
  have hN : HasDerivAt N
      (0.5 * (2 / Real.sqrt Real.pi * Real.exp (-(x / Real.sqrt 2) ^ 2) * (1 / Real.sqrt 2)))
      x := by
    have h := (hcomp.const_add (1:ℝ)).const_mul (0.5:ℝ)
    simpa [N] using h
  convert hN using 1
  have hsq : (x / Real.sqrt 2) ^ 2 = x ^ 2 / 2 := by
    rw [div_pow, Real.sq_sqrt (by norm_num : (0:ℝ) ≤ 2)]
  rw [hsq]
  unfold n
  rw [show Real.sqrt (2 * Real.pi) = Real.sqrt 2 * Real.sqrt Real.pi from
    Real.sqrt_mul (by norm_num) _]
  rw [show (-0.5 * x ^ 2 : ℝ) = -(x ^ 2 / 2) by ring]
  have hπ : Real.sqrt Real.pi ≠ 0 := sqrt_pi_pos.ne'
  have h2 : Real.sqrt 2 ≠ 0 := (Real.sqrt_pos.mpr two_pos).ne'
  field_simp
  ring

theorem bs_d1_differentiable (S K T r q σ : ℝ) (hT : 0 < T) (hσ : σ ≠ 0) :
    ∃ D, HasDerivAt (fun s => bs_d1 S K T r s q) D σ := by
  have hτpos : 0 < Real.sqrt T := Real.sqrt_pos.mpr hT
  have hden : σ * Real.sqrt T ≠ 0 := mul_ne_zero hσ hτpos.ne'
  have h1 : HasDerivAt (fun s : ℝ => s ^ 2) (2 * σ) σ := by
    simpa using hasDerivAt_pow 2 σ
  have hnum : HasDerivAt (fun s : ℝ => Real.log (S / K) + (r - q + 0.5 * s ^ 2) * T)
      (0.5 * (2 * σ) * T) σ :=
    (((h1.const_mul (0.5:ℝ)).const_add (r - q)).mul_const T).const_add (Real.log (S / K))
  have hdenf : HasDerivAt (fun s : ℝ => s * Real.sqrt T) (Real.sqrt T) σ := by
    simpa using (hasDerivAt_id σ).mul_const (Real.sqrt T)
  have hq := hnum.div hdenf hden
  exact ⟨_, by simpa [bs_d1] using hq⟩

theorem bs_pdf_identity (S K T r q sigma : ℝ) (hS : 0 < S) (hK : 0 < K) (hT : 0 < T)
    (hs : sigma ≠ 0) :
    K * Real.exp (-r * T) * n (bs_d2 S K T r sigma q)
      = S * Real.exp (-q * T) * n (bs_d1 S K T r sigma q) := by
  have hτ : Real.sqrt T ^ 2 = T := Real.sq_sqrt hT.le
  have hτ0 : Real.sqrt T ≠ 0 := (Real.sqrt_pos.mpr hT).ne'
  have hd : bs_d1 S K T r sigma q * (sigma * Real.sqrt T)
      = Real.log (S / K) + (r - q + 0.5 * sigma ^ 2) * T := by
    unfold bs_d1
    exact div_mul_cancel₀ _ (mul_ne_zero hs hτ0)
  have hexp : Real.exp (-0.5 * bs_d2 S K T r sigma q ^ 2)
      = Real.exp (-0.5 * bs_d1 S K T r sigma q ^ 2) * (S / K) * Real.exp ((r - q) * T) := by
    rw [← Real.exp_log (div_pos hS hK), ← Real.exp_add, ← Real.exp_add]
    congr 1
    unfold bs_d2
    linear_combination hd - 0.5 * sigma ^ 2 * hτ
  have hEq : Real.exp (-r * T) * Real.exp ((r - q) * T) = Real.exp (-q * T) := by
    rw [← Real.exp_add]
    congr 1
    ring
  unfold n
  rw [hexp, ← hEq]
  have hW : Real.sqrt (2 * Real.pi) ≠ 0 := by positivity
  have hK0 : K ≠ 0 := hK.ne'
  field_simp
  ring

theorem hasDerivAt_bs_call_sigma (S K T r q σ : ℝ) (hS : 0 < S) (hK : 0 < K)
    (hT : 0 < T) (hσ : 0 < σ) :
    HasDerivAt (fun sigma => S * Real.exp (-q * T) * N (bs_d1 S K T r sigma q)
        - K * Real.exp (-r * T) * N (bs_d2 S K T r sigma q))
      (S * Real.exp (-q * T) * n (bs_d1 S K T r σ q) * Real.sqrt T) σ := by
  obtain ⟨D1, hd1⟩ := bs_d1_differentiable S K T r q σ hT hσ.ne'
  have hlin : HasDerivAt (fun s : ℝ => s * Real.sqrt T) (Real.sqrt T) σ := by
    simpa using (hasDerivAt_id σ).mul_const (Real.sqrt T)
  have hd2 : HasDerivAt (fun s => bs_d2 S K T r s q) (D1 - Real.sqrt T) σ := by
    simpa [bs_d2] using hd1.sub hlin
  have hN1 : HasDerivAt (fun s => N (bs_d1 S K T r s q)) (n (bs_d1 S K T r σ q) * D1) σ :=
    (hasDerivAt_N (bs_d1 S K T r σ q)).comp σ hd1
  have hN2 : HasDerivAt (fun s => N (bs_d2 S K T r s q))
      (n (bs_d2 S K T r σ q) * (D1 - Real.sqrt T)) σ :=
    (hasDerivAt_N (bs_d2 S K T r σ q)).comp σ hd2
  have hI := bs_pdf_identity S K T r q σ hS hK hT hσ.ne'
  have hprice := (hN1.const_mul (S * Real.exp (-q * T))).sub
    (hN2.const_mul (K * Real.exp (-r * T)))
  convert hprice using 1
  linear_combination (D1 - Real.sqrt T) * hI

theorem bs_call_strictMonoOn_sigma (S K T r q : ℝ) (hS : 0 < S) (hK : 0 < K) (hT : 0 < T) :
    StrictMonoOn (fun sigma => S * Real.exp (-q * T) * N (bs_d1 S K T r sigma q)
      - K * Real.exp (-r * T) * N (bs_d2 S K T r sigma q)) (Set.Ioi 0) := by
  apply strictMonoOn_of_deriv_pos (convex_Ioi 0)
  · intro x hx
    exact (hasDerivAt_bs_call_sigma S K T r q x hS hK hT hx).continuousAt.continuousWithinAt
  · intro x hx
    rw [interior_Ioi] at hx
    rw [(hasDerivAt_bs_call_sigma S K T r q x hS hK hT hx).deriv]
    have hn : 0 < n (bs_d1 S K T r x q) := by
      unfold n
      positivity
    exact mul_pos (mul_pos (mul_pos hS (Real.exp_pos _)) hn) (Real.sqrt_pos.mpr hT)

theorem black_scholes_price_noncall_general (S K T r sigma q : ℝ) (ot : String)
    (hot : ot ≠ "call") (h1 : ¬ T ≤ 0) (h2 : ¬ sigma ≤ 0) :
    black_scholes_price S K T r sigma ot q
      = K * Real.exp (-r * T) * N (-bs_d2 S K T r sigma q)
        - S * Real.exp (-q * T) * N (-bs_d1 S K T r sigma q) := by
  simp only [black_scholes_price, h1, h2, if_false]
  rw [if_neg hot]

theorem bs_strictMonoOn_sigma (S K T r q : ℝ) (ot : String)
    (hS : 0 < S) (hK : 0 < K) (hT : 0 < T) :
    StrictMonoOn (fun sigma => black_scholes_price S K T r sigma ot q) (Set.Ioi 0) := by
  have hcall := bs_call_strictMonoOn_sigma S K T r q hS hK hT
  intro x hx y hy hxy
  have hx0 : (0:ℝ) < x := hx
  have hy0 : (0:ℝ) < y := hy
  have key : S * Real.exp (-q * T) * N (bs_d1 S K T r x q)
        - K * Real.exp (-r * T) * N (bs_d2 S K T r x q)
      < S * Real.exp (-q * T) * N (bs_d1 S K T r y q)
        - K * Real.exp (-r * T) * N (bs_d2 S K T r y q) := hcall hx hy hxy
  show black_scholes_price S K T r x ot q < black_scholes_price S K T r y ot q
  by_cases hot : ot = "call"
  · rw [hot, black_scholes_price_call_general S K T r x q (not_le.mpr hT) (not_le.mpr hx0),
      black_scholes_price_call_general S K T r y q (not_le.mpr hT) (not_le.mpr hy0)]
    exact key
  · rw [black_scholes_price_noncall_general S K T r x q ot hot (not_le.mpr hT)
        (not_le.mpr hx0),
      black_scholes_price_noncall_general S K T r y q ot hot (not_le.mpr hT)
        (not_le.mpr hy0),
      N_neg (bs_d1 S K T r x q), N_neg (bs_d2 S K T r x q),
      N_neg (bs_d1 S K T r y q), N_neg (bs_d2 S K T r y q)]
    linarith

/-- C8 (amended): for every `S, K, T > 0`, any kind string and any dividend
yield, `black_scholes_price` is strictly increasing in σ on `σ > 0` (hence
non-decreasing on `(0, 5]`).  The non-decrease does not extend to the σ = 0
endpoint: with `r < 0` the zero-volatility branch can exceed nearby
general-branch values (see the counterexample). -/
theorem black_scholes_price_strictMono_sigma (S K T r q : ℝ) (ot : String)
    (hS : 0 < S) (hK : 0 < K) (hT : 0 < T) :
    StrictMonoOn (fun sigma => black_scholes_price S K T r sigma ot q) (Set.Ioi 0) :=
  bs_strictMonoOn_sigma S K T r q ot hS hK hT

/-- Witness for C8: the at-the-money one-year call price strictly increases
from σ = 0.2 to σ = 0.3. -/
theorem black_scholes_price_strictMono_sigma_witness :
    black_scholes_price 100 100 1 (5/100) (2/10) "call" 0
      < black_scholes_price 100 100 1 (5/100) (3/10) "call" 0 :=
  black_scholes_price_strictMono_sigma 100 100 1 (5/100) 0 "call"
    (by norm_num) (by norm_num) (by norm_num)
    (by norm_num : (2/10:ℝ) ∈ Set.Ioi 0) (by norm_num : (3/10:ℝ) ∈ Set.Ioi 0)
    (by norm_num)

end BSM

namespace BSM

theorem integral_exp_neg_le_gauss :
    1 - Real.exp (-1) ≤ ∫ t in (0:ℝ)..1, Real.exp (-t ^ 2) := by
  have hlin : (∫ t in (0:ℝ)..1, Real.exp (-t)) = 1 - Real.exp (-1) := by
    have h : (∫ t in (0:ℝ)..1, Real.exp (-t)) = ∫ t in (-1:ℝ)..(-(0:ℝ)), Real.exp t :=
      intervalIntegral.integral_comp_neg fun t : ℝ => Real.exp t
    rw [h]
    simp [integral_exp]
  rw [← hlin]
  apply intervalIntegral.integral_mono_on (by norm_num)
    ((Real.continuous_exp.comp continuous_neg).intervalIntegrable 0 1)
    (integrable_gauss 0 1)
  intro t ht
  have hle : -t ≤ -t ^ 2 := by nlinarith [ht.1, ht.2]
  exact Real.exp_le_exp.mpr hle

theorem erf_ge_of_one_le (z : ℝ) (hz : 1 ≤ z) :
    2 / Real.sqrt Real.pi * (1 - Real.exp (-1)) ≤ erf z := by
  have h1 : erf 1 ≤ erf z := erf_monotone hz
  have h2 : 2 / Real.sqrt Real.pi * (1 - Real.exp (-1)) ≤ erf 1 := by
    unfold erf
    exact mul_le_mul_of_nonneg_left integral_exp_neg_le_gauss (by positivity)
  linarith

theorem N_lower_bound (x : ℝ) (hx : Real.sqrt 2 ≤ x) : (0.85:ℝ) ≤ N x := by
  have h2 : (0:ℝ) < Real.sqrt 2 := Real.sqrt_pos.mpr two_pos
  have h1 : (1:ℝ) ≤ x / Real.sqrt 2 := by
    rw [le_div_iff₀ h2]
    linarith
  have herf := erf_ge_of_one_le _ h1
  have hsqrtpi : Real.sqrt Real.pi ≤ 1.7725 := by
    rw [show (1.7725:ℝ) = Real.sqrt (1.7725 ^ 2) from (Real.sqrt_sq (by norm_num)).symm]
    apply Real.sqrt_le_sqrt
    nlinarith [Real.pi_lt_d4]
  have hA : (2:ℝ)/1.7725 ≤ 2 / Real.sqrt Real.pi :=
    div_le_div_of_nonneg_left (by norm_num) sqrt_pi_pos hsqrtpi
  have hB : Real.exp (-1 : ℝ) ≤ 0.3679 := by
    rw [Real.exp_neg]
    have he : (2.7182818283:ℝ) < Real.exp 1 := Real.exp_one_gt_d9
    calc (Real.exp 1)⁻¹ ≤ (2.7182818283:ℝ)⁻¹ := inv_anti₀ (by norm_num) he.le
      _ ≤ 0.3679 := by norm_num
  have hmul : (2:ℝ)/1.7725 * (1 - 0.3679)
      ≤ 2 / Real.sqrt Real.pi * (1 - Real.exp (-1)) := by
    apply mul_le_mul hA (by linarith) (by norm_num) (by positivity)
  unfold N
  have hfin : (2:ℝ)/1.7725 * (1 - 0.3679) ≤ erf (x / Real.sqrt 2) := le_trans hmul herf
  linarith

/-- C8 counterexample: with a negative rate the price is not non-decreasing
in σ over [0, 5]: at `S=100, K=50, T=1, r=−0.1, q=0` the σ = 0 branch
returns `50·e^{0.1} ≈ 55.26`, which exceeds the general-branch price at
σ = 0.2 (about 44.7) — the price strictly decreases from σ = 0 to σ = 0.2. -/
theorem black_scholes_mono_sigma_counterexample :
    black_scholes_price 100 50 1 (-(1/10)) (2/10) "call" 0
      < black_scholes_price 100 50 1 (-(1/10)) 0 "call" 0 := by
  have hgen := black_scholes_price_call_general 100 50 1 (-(1/10)) (2/10) 0
    (by norm_num) (by norm_num)
  have hR : black_scholes_price 100 50 1 (-(1/10)) 0 "call" 0
      = Real.exp (-(-(1/10)) * 1) * 50 := by
    simp only [black_scholes_price]
    rw [if_neg (by norm_num : ¬ (1:ℝ) ≤ 0), if_pos (le_refl (0:ℝ))]
    norm_num [max_def]
  have hs1 : Real.sqrt 1 = 1 := Real.sqrt_one
  have hd2v : bs_d2 100 50 1 (-(1/10)) (2/10) 0 = 5 * Real.log 2 - 3/5 := by
    unfold bs_d2 bs_d1
    rw [hs1, show (100:ℝ)/50 = 2 by norm_num]
    field_simp
    ring
  have hlog : (0.6931471803:ℝ) < Real.log 2 := Real.log_two_gt_d9
  have hsqrt2 : Real.sqrt 2 ≤ 1.5 := by
    rw [show (1.5:ℝ) = Real.sqrt (1.5 ^ 2) from (Real.sqrt_sq (by norm_num)).symm]
    apply Real.sqrt_le_sqrt
    norm_num
  have hd2big : Real.sqrt 2 ≤ bs_d2 100 50 1 (-(1/10)) (2/10) 0 := by
    rw [hd2v]
    linarith
  have hNd2 := N_lower_bound _ hd2big
  have hNd1 := N_le_one (bs_d1 100 50 1 (-(1/10)) (2/10) 0)
  have hNd1' := N_nonneg (bs_d1 100 50 1 (-(1/10)) (2/10) 0)
  have hE : (1.1:ℝ) ≤ Real.exp (-(-(1/10)) * 1) := by
    rw [show (-(-(1/10)) * 1 : ℝ) = 1/10 by norm_num]
    have := Real.add_one_le_exp (1/10 : ℝ)
    linarith
  rw [hgen, hR]
  rw [show (-(0:ℝ) * 1) = 0 by norm_num, Real.exp_zero]
  have hmul : 50 * Real.exp (-(-(1/10)) * 1) * (0.85:ℝ)
      ≤ 50 * Real.exp (-(-(1/10)) * 1) * N (bs_d2 100 50 1 (-(1/10)) (2/10) 0) := by
    apply mul_le_mul_of_nonneg_left hNd2 (by positivity)
  nlinarith [hE, hNd1, hmul]

end BSM

namespace BSM

theorem bisect_le (f : ℝ → ℝ) :
    ∀ (fuel : ℕ) (lo hi : ℝ), lo ≤ hi →
      lo ≤ (bisect f fuel lo hi).1 ∧ (bisect f fuel lo hi).1 ≤ (bisect f fuel lo hi).2
        ∧ (bisect f fuel lo hi).2 ≤ hi
        ∧ (bisect f fuel lo hi).2 - (bisect f fuel lo hi).1 = (hi - lo) / 2 ^ fuel := by
  intro fuel
  induction fuel with
  | zero =>
      intro lo hi h
      simp [bisect, h]
  | succ k ih =>
      intro lo hi h
      have hm1 : lo ≤ (lo + hi) / 2 := by linarith
      have hm2 : (lo + hi) / 2 ≤ hi := by linarith
      simp only [bisect]
      by_cases hc : f lo * f ((lo + hi) / 2) ≤ 0
      · rw [if_pos hc]
        obtain ⟨h1, h2, h3, h4⟩ := ih lo ((lo + hi) / 2) hm1
        refine ⟨h1, h2, le_trans h3 hm2, ?_⟩
        rw [h4, pow_succ]
        field_simp
        ring
      · rw [if_neg hc]
        obtain ⟨h1, h2, h3, h4⟩ := ih ((lo + hi) / 2) hi hm2
        refine ⟨le_trans hm1 h1, h2, h3, ?_⟩
        rw [h4, pow_succ]
        field_simp
        ring

theorem bisect_mem (f : ℝ → ℝ) (x0 : ℝ) (hx0 : f x0 = 0) :
    ∀ (fuel : ℕ) (lo hi : ℝ), lo ≤ x0 → x0 ≤ hi →
      (∀ u, lo ≤ u → u ≤ hi → u < x0 → f u < 0) →
      (∀ u, lo ≤ u → u ≤ hi → x0 < u → 0 < f u) →
      (bisect f fuel lo hi).1 ≤ x0 ∧ x0 ≤ (bisect f fuel lo hi).2 := by
  intro fuel
  induction fuel with
  | zero =>
      intro lo hi h1 h2 _ _
      simpa [bisect] using ⟨h1, h2⟩
  | succ k ih =>
      intro lo hi hlo hhi hneg hpos
      have hlh : lo ≤ hi := le_trans hlo hhi
      have hm1 : lo ≤ (lo + hi) / 2 := by linarith
      have hm2 : (lo + hi) / 2 ≤ hi := by linarith
      simp only [bisect]
      by_cases hc : f lo * f ((lo + hi) / 2) ≤ 0
      · rw [if_pos hc]
        have hx0mid : x0 ≤ (lo + hi) / 2 := by
          by_contra hcon
          push_neg at hcon
          have hfmid : f ((lo + hi) / 2) < 0 := hneg _ hm1 hm2 hcon
          have hflo : f lo < 0 := by
            rcases lt_or_eq_of_le hlo with hcase | hcase
            · exact hneg _ le_rfl hlh hcase
            · exfalso
              rw [← hcase] at hcon
              linarith
          nlinarith [mul_pos_of_neg_of_neg hflo hfmid]
        exact ih lo ((lo + hi) / 2) hlo hx0mid
          (fun u hu1 hu2 hu3 => hneg u hu1 (le_trans hu2 hm2) hu3)
          (fun u hu1 hu2 hu3 => hpos u hu1 (le_trans hu2 hm2) hu3)
      · rw [if_neg hc]
        push_neg at hc
        have hmid0 : (lo + hi) / 2 ≤ x0 := by
          by_contra hcon
          push_neg at hcon
          have hfmid : 0 < f ((lo + hi) / 2) := hpos _ hm1 hm2 hcon
          have hflo : f lo ≤ 0 := by
            rcases lt_or_eq_of_le hlo with hcase | hcase
            · exact (hneg _ le_rfl hlh hcase).le
            · rw [hcase, hx0]
          nlinarith [hc, hflo, hfmid]
        exact ih ((lo + hi) / 2) hi hmid0 hhi
          (fun u hu1 hu2 hu3 => hneg u (le_trans hm1 hu1) hu2 hu3)
          (fun u hu1 hu2 hu3 => hpos u (le_trans hm1 hu1) hu2 hu3)

theorem bisect_sign (f : ℝ → ℝ) :
    ∀ (fuel : ℕ) (lo hi : ℝ), f lo * f hi ≤ 0 →
      f (bisect f fuel lo hi).1 * f (bisect f fuel lo hi).2 ≤ 0 := by
  intro fuel
  induction fuel with
  | zero =>
      intro lo hi h
      simpa [bisect] using h
  | succ k ih =>
      intro lo hi h
      simp only [bisect]
      by_cases hc : f lo * f ((lo + hi) / 2) ≤ 0
      · rw [if_pos hc]
        exact ih _ _ hc
      · rw [if_neg hc]
        push_neg at hc
        apply ih
        nlinarith [hc, h, sq_nonneg (f ((lo + hi) / 2))]

end BSM

namespace BSM

/-- C5: implied-vol round-trip — for `S, K, T > 0`, any kind string, and a
true volatility σ₀ strictly inside the solver bracket `(1e-6, 5)`, feeding
the closed-form price at σ₀ back into `implied_vol` yields `some v` with
`|v − σ₀| ≤ 1e-4`: strict monotonicity in σ puts a sign change across the
bracket, and the bracketed search pins σ₀ inside a final bracket of width
`(5 − 1e-6)/2^100 < 1e-4`. -/
theorem implied_vol_round_trip (S K T r : ℝ) (ot : String) (sigma0 : ℝ)
    (hS : 0 < S) (hK : 0 < K) (hT : 0 < T)
    (hlo : 1 / 1000000 < sigma0) (hhi : sigma0 < 5) :
    ∃ v, implied_vol S K T r (black_scholes_price S K T r sigma0 ot 0) ot = some v
      ∧ |v - sigma0| ≤ 1 / 10000 := by
  have hmono := bs_strictMonoOn_sigma S K T r 0 ot hS hK hT
  have ha0 : (0:ℝ) < 1 / 1000000 := by norm_num
  have hs0 : (0:ℝ) < sigma0 := lt_trans ha0 hlo
  have hblt : ∀ u w : ℝ, 0 < u → 0 < w → u < w →
      black_scholes_price S K T r u ot 0 < black_scholes_price S K T r w ot 0 :=
    fun u w hu hw huw => hmono (Set.mem_Ioi.mpr hu) (Set.mem_Ioi.mpr hw) huw
  have hfa : black_scholes_price S K T r (1 / 1000000) ot 0
      - black_scholes_price S K T r sigma0 ot 0 < 0 :=
    sub_neg.mpr (hblt _ _ ha0 hs0 hlo)
  have hfb : 0 < black_scholes_price S K T r 5 ot 0
      - black_scholes_price S K T r sigma0 ot 0 :=
    sub_pos.mpr (hblt _ _ hs0 (by norm_num) hhi)
  have hcond : ¬ (0 < (black_scholes_price S K T r (1 / 1000000) ot 0
        - black_scholes_price S K T r sigma0 ot 0)
      * (black_scholes_price S K T r 5 ot 0
        - black_scholes_price S K T r sigma0 ot 0)) :=
    not_lt.mpr (mul_nonpos_iff.mpr (Or.inr ⟨hfa.le, hfb.le⟩))
  have hx0 : (fun sigma => black_scholes_price S K T r sigma ot 0
      - black_scholes_price S K T r sigma0 ot 0) sigma0 = 0 := sub_self _
  have hmem := bisect_mem (fun sigma => black_scholes_price S K T r sigma ot 0
      - black_scholes_price S K T r sigma0 ot 0) sigma0 hx0 100 (1 / 1000000) 5
    hlo.le hhi.le
    (fun u hu1 _ hu3 => sub_neg.mpr (hblt u sigma0 (lt_of_lt_of_le ha0 hu1) hs0 hu3))
    (fun u hu1 _ hu3 => sub_pos.mpr (hblt sigma0 u hs0 (lt_of_lt_of_le ha0 hu1) hu3))
  obtain ⟨hb1, hb2, hb3, hb4⟩ := bisect_le (fun sigma =>
      black_scholes_price S K T r sigma ot 0
        - black_scholes_price S K T r sigma0 ot 0) 100 (1 / 1000000) 5 (by norm_num)
  obtain ⟨hm1, hm2⟩ := hmem
  have hwidth : ((5:ℝ) - 1 / 1000000) / 2 ^ 100 ≤ 1 / 10000 := by norm_num
  have heq : implied_vol S K T r (black_scholes_price S K T r sigma0 ot 0) ot
      = some (((bisect (fun sigma => black_scholes_price S K T r sigma ot 0
            - black_scholes_price S K T r sigma0 ot 0) 100 (1 / 1000000) 5).1
          + (bisect (fun sigma => black_scholes_price S K T r sigma ot 0
            - black_scholes_price S K T r sigma0 ot 0) 100 (1 / 1000000) 5).2) / 2) := by
    simp only [implied_vol, brentq]
    rw [if_neg hcond]
  refine ⟨_, heq, ?_⟩
  rw [abs_le]
  exact ⟨by linarith, by linarith⟩

/-- Witness for C5 at `S=K=100, T=1, r=0.05, σ₀=0.2`, call. -/
theorem implied_vol_round_trip_witness :
    ∃ v, implied_vol 100 100 1 (5/100)
        (black_scholes_price 100 100 1 (5/100) (2/10) "call" 0) "call" = some v
      ∧ |v - 2/10| ≤ 1 / 10000 :=
  implied_vol_round_trip 100 100 1 (5/100) "call" (2/10) (by norm_num) (by norm_num)
    (by norm_num) (by norm_num) (by norm_num)

theorem continuous_N : Continuous N := by
  rw [continuous_iff_continuousAt]
  intro x
  exact (hasDerivAt_N x).continuousAt

theorem bs_sigma_continuousOn (S K T r : ℝ) (ot : String) :
    ContinuousOn (fun sigma => black_scholes_price S K T r sigma ot 0)
      (Set.Icc (1 / 1000000 : ℝ) 5) := by
  rcases le_or_lt T 0 with hT | hT
  · apply ContinuousOn.congr continuousOn_const
    intro x hx
    simp only [black_scholes_price]
    rw [if_pos hT]
  · have hτ : (0:ℝ) < Real.sqrt T := Real.sqrt_pos.mpr hT
    have hd1c : ContinuousOn (fun sigma => bs_d1 S K T r sigma 0)
        (Set.Icc (1 / 1000000 : ℝ) 5) := by
      simp only [bs_d1]
      apply ContinuousOn.div
      · exact continuousOn_const.add
          ((continuousOn_const.add
            (continuousOn_const.mul ((continuous_pow 2).continuousOn))).mul
            continuousOn_const)
      · exact continuousOn_id.mul continuousOn_const
      · intro x hx
        have hx0 : (0:ℝ) < x := lt_of_lt_of_le (by norm_num) hx.1
        exact (mul_pos hx0 hτ).ne'
    have hd2c : ContinuousOn (fun sigma => bs_d2 S K T r sigma 0)
        (Set.Icc (1 / 1000000 : ℝ) 5) := by
      simp only [bs_d2]
      exact hd1c.sub (continuousOn_id.mul continuousOn_const)
    by_cases hot : ot = "call"
    · apply ContinuousOn.congr
        ((continuousOn_const.mul (continuous_N.comp_continuousOn hd1c)).sub
          (continuousOn_const.mul (continuous_N.comp_continuousOn hd2c)))
      intro x hx
      have hx0 : ¬ x ≤ 0 := not_le.mpr (lt_of_lt_of_le (by norm_num) hx.1)
      rw [hot]
      exact black_scholes_price_call_general S K T r x 0 (not_le.mpr hT) hx0
    · apply ContinuousOn.congr
        ((continuousOn_const.mul (continuous_N.comp_continuousOn hd2c.neg)).sub
          (continuousOn_const.mul (continuous_N.comp_continuousOn hd1c.neg)))
      intro x hx
      have hx0 : ¬ x ≤ 0 := not_le.mpr (lt_of_lt_of_le (by norm_num) hx.1)
      exact black_scholes_price_noncall_general S K T r x 0 ot hot (not_le.mpr hT) hx0

theorem brentq_root_or_none (f : ℝ → ℝ) (a b : ℝ) (fuel : ℕ) (hab : a ≤ b)
    (hcont : ContinuousOn f (Set.Icc a b)) :
    brentq f a b fuel = none ∨
      ∃ v root : ℝ, brentq f a b fuel = some v ∧
        a ≤ v ∧ v ≤ b ∧ a ≤ root ∧ root ≤ b ∧ f root = 0 ∧
        |v - root| ≤ (b - a) / 2 ^ fuel := by
  by_cases hc : 0 < f a * f b
  · left
    unfold brentq
    rw [if_pos hc]
  · right
    obtain ⟨hb1, hb2, hb3, hb4⟩ := bisect_le f fuel a b hab
    have hsign := bisect_sign f fuel a b (not_lt.mp hc)
    have hcont2 := hcont.mono (Set.Icc_subset_Icc hb1 hb3)
    have hroot : ∃ root ∈ Set.Icc (bisect f fuel a b).1 (bisect f fuel a b).2,
        f root = 0 := by
      rcases mul_nonpos_iff.mp hsign with ⟨hge, hle⟩ | ⟨hle, hge⟩
      · obtain ⟨root, hrm, hr⟩ := intermediate_value_Icc' hb2 hcont2 ⟨hle, hge⟩
        exact ⟨root, hrm, hr⟩
      · obtain ⟨root, hrm, hr⟩ := intermediate_value_Icc hb2 hcont2 ⟨hle, hge⟩
        exact ⟨root, hrm, hr⟩
    obtain ⟨root, hrm, hr⟩ := hroot
    have heq : brentq f a b fuel
        = some (((bisect f fuel a b).1 + (bisect f fuel a b).2) / 2) := by
      unfold brentq
      rw [if_neg hc]
    refine ⟨_, root, heq, ?_, ?_, le_trans hb1 hrm.1, le_trans hrm.2 hb3, hr, ?_⟩
    · linarith [hrm.1, hrm.2]
    · linarith [hrm.1, hrm.2]
    · rw [abs_le]
      exact ⟨by linarith [hrm.1, hrm.2], by linarith [hrm.1, hrm.2]⟩

/-- C4: for every numeric input the Implied Volatility Solver either
returns the explicit not-found sentinel (`np.nan` in the source, `none`
here) — as it does whenever the bracket shows no sign change — or returns a
value `v` in the bracket `[1e-6, 5]` together with an exact root of
`black_scholes_price(S,K,T,r,·) = market_price` at distance at most
`(5 − 1e-6)/2^100` from `v`.  It is total: no input crashes it. -/
theorem implied_vol_root_or_sentinel (S K T r p : ℝ) (ot : String) :
    implied_vol S K T r p ot = none ∨
      ∃ v root : ℝ,
        implied_vol S K T r p ot = some v ∧
        1 / 1000000 ≤ v ∧ v ≤ 5 ∧
        1 / 1000000 ≤ root ∧ root ≤ 5 ∧
        black_scholes_price S K T r root ot 0 = p ∧
        |v - root| ≤ (5 - 1 / 1000000) / 2 ^ 100 := by
  have h := brentq_root_or_none
    (fun sigma => black_scholes_price S K T r sigma ot 0 - p)
    (1 / 1000000) 5 100 (by norm_num)
    ((bs_sigma_continuousOn S K T r ot).sub continuousOn_const)
  rcases h with h | ⟨v, root, h1, h2, h3, h4, h5, h6, h7⟩
  · left
    exact h
  · right
    exact ⟨v, root, h1, h2, h3, h4, h5, sub_eq_zero.mp h6, h7⟩

end BSM
